import Mathlib

set_option autoImplicit false

namespace MusicSync

/-!
Shallow embedding of `music-playlist-online-sync` (Rust), covering the parts
of the code the verified claims are about:

* `collapse.rs` — `collapse_events`;
* `db.rs` — `try_acquire_playlist_lock`, `release_playlist_lock`,
  `save_credential_raw`, `get_track_cache_by_local`, `upsert_track_cache`;
* `api/spotify.rs` / `api/tidal.rs` — `persist_token_to_db` and the
  error-message formats the worker parses;
* `worker.rs` — the desired-set reconciliation diff, `apply_in_batches`
  (retry / rate-limit / recreate-on-404 handling), the explicit-rename loop
  and the mark-events-synced tail of `run_worker_once`.

Stateful loops are embedded as functions over explicit provider-response
scripts (one scripted response per provider call, in order); an exhausted
script answers every further call with success.  Machine integers (`u32`,
`u64`, `usize`, `i64`) are modelled as `Nat`/`Int`: none of the verified
paths can overflow them (attempt counters, second counts, row ids).
-/

/-! ### Character-list scanning helpers

Rust `str` operations used by `worker.rs` (`contains`, `split`, `trim`,
`trim_start_matches`, `starts_with`, digit parsing), modelled structurally
over `List Char` so that every proof can evaluate them.
-/

/-- Rust `str::starts_with pat` on character lists: `startsWithL pat s`. -/
def startsWithL : List Char → List Char → Bool
  | [], _ => true
  | _ :: _, [] => false
  | p :: ps, c :: cs => p == c && startsWithL ps cs

/-- Rust `str::contains pat` (substring search). -/
def containsL (pat : List Char) : List Char → Bool
  | [] => startsWithL pat []
  | c :: cs => startsWithL pat (c :: cs) || containsL pat cs

/-- Rust `String::contains` on `String`s: `strContains s pat`. -/
def strContains (s pat : String) : Bool := containsL pat.data s.data

/-- The remainder of `s` after the first occurrence of `pat`
(`none` when `pat` does not occur).  Together with `takeUntilPat` this
models Rust `s.split(pat).nth(1)`. -/
def dropThroughFirst (pat : List Char) : List Char → Option (List Char)
  | [] => if pat.isEmpty then some [] else none
  | c :: cs =>
    if startsWithL pat (c :: cs) then some ((c :: cs).drop pat.length)
    else dropThroughFirst pat cs

/-- The longest prefix of `s` not containing `pat` (the next split segment). -/
def takeUntilPat (pat : List Char) : List Char → List Char
  | [] => []
  | c :: cs => if startsWithL pat (c :: cs) then [] else c :: takeUntilPat pat cs

/-- Rust `str::trim` (whitespace from both ends). -/
def trimL (l : List Char) : List Char :=
  ((l.dropWhile Char.isWhitespace).reverse.dropWhile Char.isWhitespace).reverse

/-- Fueled helper for `stripSome`. -/
def stripSomeGo : Nat → List Char → List Char
  | 0, l => l
  | n + 1, l => if startsWithL "Some(".data l then stripSomeGo n (l.drop 5) else l

/-- Rust `str::trim_start_matches "Some("` (strips every leading repetition). -/
def stripSome (l : List Char) : List Char := stripSomeGo l.length l

/-- Numeric value of a decimal digit character. -/
def digitVal (c : Char) : Nat := c.toNat - 48

/-- Rust `str::parse::<u64>` restricted to the shapes produced below: all
characters must be decimal digits and the string must be non-empty. -/
def parseNatL (l : List Char) : Option Nat :=
  if l.isEmpty then none
  else if l.all Char.isDigit then some (l.foldl (fun acc c => 10 * acc + digitVal c) 0)
  else none

/-- `worker.rs` `apply_in_batches`: the closure parsing an advertised
retry-after duration out of a provider error message
(`s.split("retry_after=").nth(1)` then the `Some(…)` / `None` / digit-token
cases). -/
def parseRetryAfter (s : String) : Option Nat :=
  match dropThroughFirst "retry_after=".data s.data with
  | none => none
  | some rest =>
    let token := trimL (takeUntilPat "retry_after=".data rest)
    if startsWithL "Some(".data token then
      parseNatL ((stripSome token).takeWhile (fun c => c != ')'))
    else if startsWithL "None".data token then none
    else parseNatL (trimL (token.takeWhile Char.isDigit))

/-! ### Events and `collapse_events` (`models.rs`, `collapse.rs`) -/

/-- `models.rs` `EventAction`. -/
inductive EventAction where
  | add
  | remove
  | renameAct (fromKey toKey : String)
  | create
  | delete
deriving DecidableEq

/-- `models.rs` `Event`. -/
structure Event where
  id : Int
  timestampMs : Int
  playlistName : String
  action : EventAction
  trackPath : Option String
  extra : Option String
  isSynced : Bool
deriving DecidableEq

/-- The two values ever stored in `collapse_events`' `track_state` map
(`EventAction::Add` / `EventAction::Remove`). -/
inductive TrackOp where
  | add
  | remove
deriving DecidableEq

/-- `track_state` (`HashMap<String, EventAction>`) modelled as an
association list with unique keys. -/
abbrev TrackState := List (String × TrackOp)

/-- `HashMap::get`. -/
def lookupTS : TrackState → String → Option TrackOp
  | [], _ => none
  | (k, v) :: rest, u => if u = k then some v else lookupTS rest u

/-- `HashMap::remove` (drops every entry for the key; reachable maps have
unique keys, so this is the single entry). -/
def eraseTS : TrackState → String → TrackState
  | [], _ => []
  | (k, v) :: rest, u => if k = u then eraseTS rest u else (k, v) :: eraseTS rest u

/-- `HashMap::insert`.  The Rust map's iteration order is unspecified, so any
deterministic refinement is a faithful embedding; this one keeps the freshly
inserted entry in front. -/
def insertTS (m : TrackState) (u : String) (v : TrackOp) : TrackState :=
  (u, v) :: eraseTS m u

/-- The loop body of `collapse_events` (collapse.rs lines 17-49): walk the
events in order, maintaining `track_state` and the preserved
create/delete/rename events (`other_ops`). -/
def collapseGo : List Event → List Event → TrackState → List Event × TrackState
  | [], acc, m => (acc, m)
  | e :: rest, acc, m =>
    match e.action, e.trackPath with
    | .add, some t =>
      match lookupTS m t with
      | some .remove => collapseGo rest acc (eraseTS m t)
      | _ => collapseGo rest acc (insertTS m t .add)
    | .remove, some t =>
      match lookupTS m t with
      | some .add => collapseGo rest acc (eraseTS m t)
      | _ => collapseGo rest acc (insertTS m t .remove)
    | .add, none => collapseGo rest acc m
    | .remove, none => collapseGo rest acc m
    | _, _ => collapseGo rest (acc ++ [e]) m

/-- The synthetic event `collapse_events` pushes for one remaining
`track_state` entry (collapse.rs lines 55-65; the wall-clock timestamp is
irrelevant to every property and fixed at `0`). -/
def mkTrackEvent (p : String × TrackOp) : Event :=
  { id := 0, timestampMs := 0, playlistName := "",
    action := match p.2 with | .add => .add | .remove => .remove,
    trackPath := some p.1, extra := none, isSynced := false }

/-- `collapse.rs` `collapse_events`: preserved create/delete/rename events in
order, followed by one synthetic event per remaining `track_state` entry. -/
def collapse_events (events : List Event) : List Event :=
  (collapseGo events [] []).1 ++ (collapseGo events [] []).2.map mkTrackEvent

/-- Replaying one event against the remote track set: `Add` inserts the
track, `Remove` erases it, `Create`/`Rename` do not change the set. -/
def applyEvent (s : Finset String) (e : Event) : Finset String :=
  match e.action, e.trackPath with
  | .add, some t => insert t s
  | .remove, some t => s.erase t
  | _, _ => s

/-- Whether a batch contains a `Delete` event (the worker's `has_delete`). -/
def hasDelete (events : List Event) : Bool :=
  events.any (fun e => e.action = .delete)

/-- Final remote track set after a batch, as the worker applies it: a batch
with a `Delete` event deletes the remote playlist (`run_worker_once`'s
`has_delete` path skips all track work), otherwise the add/remove events act
on the track set in order. -/
def applyBatch (s : Finset String) (events : List Event) : Finset String :=
  if hasDelete events then ∅ else events.foldl applyEvent s

/-- A batch is a coherent history of state `s` when every `Add` applies to a
track currently absent and every `Remove` to a track currently present. -/
def coherent (s : Finset String) : List Event → Bool
  | [] => true
  | e :: rest =>
    match e.action, e.trackPath with
    | .add, some t => !(decide (t ∈ s)) && coherent (insert t s) rest
    | .remove, some t => decide (t ∈ s) && coherent (s.erase t) rest
    | _, _ => coherent s rest

/-- Convenience constructor for an add/remove event as ingest enqueues it. -/
def mkEv (i : Int) (a : EventAction) (t : String) : Event :=
  { id := i, timestampMs := i, playlistName := "p", action := a,
    trackPath := some t, extra := none, isSynced := false }

/-- Keys of a `track_state` map. -/
def keysTS (m : TrackState) : List String := m.map Prod.fst

/-- Reachable `track_state` maps have pairwise distinct keys (they model a
`HashMap`). -/
def NodupKeys (m : TrackState) : Prop := (keysTS m).Nodup

/-- Applying the remaining `track_state` entries to the remote track set,
in iteration order: each entry is one synthetic add/remove. -/
def applyTrackOps : Finset String → TrackState → Finset String
  | s, [] => s
  | s, (k, .add) :: rest => applyTrackOps (insert k s) rest
  | s, (k, .remove) :: rest => applyTrackOps (s.erase k) rest

/-- The subsequence of add/remove operations a batch performs on one track
path `t`. -/
def opsOn (t : String) : List Event → List TrackOp
  | [] => []
  | e :: rest =>
    match e.action, e.trackPath with
    | .add, some u => if u = t then .add :: opsOn t rest else opsOn t rest
    | .remove, some u => if u = t then .remove :: opsOn t rest else opsOn t rest
    | _, _ => opsOn t rest

/-- The per-track state machine of `collapse_events`: an operation cancels
the opposite pending operation, otherwise it overwrites the entry. -/
def stepOp : Option TrackOp → TrackOp → Option TrackOp
  | some .remove, .add => none
  | some .add, .remove => none
  | _, .add => some .add
  | _, .remove => some .remove

/-! ### Desired-set reconciliation (`worker.rs` `desired_remote_uris_for_playlist`
and the diff seeding in `run_worker_once`, lines 495-525 and 819-868) -/

/-- The `.m3u` line filter in `desired_remote_uris_for_playlist`: comment
lines (`starts_with('#')`) and blank lines are skipped. -/
def keepLine (l : String) : Bool :=
  !(startsWithL "#".data l.data) && !(trimL l.data).isEmpty

/-- The URIs the kept lines of the local playlist resolve to, in order,
dropping lines whose resolution fails (`uri_opt.is_none` → skipped with a
warning).  `resolve` abstracts the cache / ISRC / metadata pipeline, which
maps one local path to at most one remote URI. -/
def resolvedLines (lines : List String) (resolve : String → Option String) : List String :=
  (lines.filter keepLine).filterMap resolve

/-- Order-preserving de-duplication, as `uris.retain(|u| seen.insert(u))`. -/
def dedupAux : List String → List String → List String
  | [], _ => []
  | x :: t, seen => if x ∈ seen then dedupAux t seen else x :: dedupAux t (x :: seen)

/-- `worker.rs` `desired_remote_uris_for_playlist`: resolved URIs of the
local playlist lines, de-duplicated preserving order. -/
def desired_remote_uris (lines : List String) (resolve : String → Option String) : List String :=
  dedupAux (resolvedLines lines resolve) []

/-- The diff seeding of `run_worker_once` (lines 495-525 seed
`reconcile_desired` only when the desired list is non-empty; lines 819-868
compute `to_add = desired \ current` and `to_remove = current \ desired`).
Returns `(to_add, to_remove)`; when the desired list is empty the worker
skips the diff entirely, so both lists are empty. -/
def seedReconcileDiff (desired current : List String) : List String × List String :=
  if desired.isEmpty then ([], [])
  else (desired.filter (fun u => decide (u ∉ current)),
        current.filter (fun u => decide (u ∉ desired)))

/-- Remote contents after the worker applies the seeded diff: removes are
applied before adds (`apply_in_batches` is called for `remove_uris` first),
in set semantics. -/
def applyReconcile (current toRemove toAdd : List String) : List String :=
  current.filter (fun u => decide (u ∉ toRemove)) ++ toAdd

/-! ### Processing leases (`db.rs` `try_acquire_playlist_lock`,
`release_playlist_lock`) -/

/-- A row of `processing_locks(playlist_name, worker_id, locked_at,
expires_at)`; `playlist_name` is the key. -/
structure LockRow where
  workerId : String
  lockedAt : Int
  expiresAt : Int
deriving DecidableEq

/-- The `processing_locks` table; `playlist_name` is the upsert conflict key,
so reachable tables hold at most one row per playlist and `lookupLock`
models the `LIMIT 1` select. -/
abbrev LockTable := List (String × LockRow)

/-- `SELECT worker_id, expires_at FROM processing_locks WHERE playlist_name
= ?1 LIMIT 1`. -/
def lookupLock : LockTable → String → Option LockRow
  | [], _ => none
  | (k, r) :: rest, pl => if pl = k then some r else lookupLock rest pl

/-- `INSERT ... ON CONFLICT(playlist_name) DO UPDATE SET worker_id,
locked_at, expires_at`. -/
def upsertLock : LockTable → String → LockRow → LockTable
  | [], pl, r => [(pl, r)]
  | (k, r0) :: rest, pl, r =>
    if k = pl then (k, r) :: rest else (k, r0) :: upsertLock rest pl r

/-- `db.rs` `try_acquire_playlist_lock`: refuse while a row with
`expires_at > now` exists, otherwise take (over) the lease with
`expires_at = now + ttl_seconds`.  Returns `(acquired, table)`. -/
def try_acquire_playlist_lock (tbl : LockTable) (now : Int)
    (playlistName workerId : String) (ttlSeconds : Int) : Bool × LockTable :=
  match lookupLock tbl playlistName with
  | some row =>
    if row.expiresAt > now then (false, tbl)
    else (true, upsertLock tbl playlistName ⟨workerId, now, now + ttlSeconds⟩)
  | none => (true, upsertLock tbl playlistName ⟨workerId, now, now + ttlSeconds⟩)

/-- `db.rs` `release_playlist_lock`: `DELETE FROM processing_locks WHERE
playlist_name = ?1 AND worker_id = ?2`. -/
def release_playlist_lock (tbl : LockTable) (playlistName workerId : String) : LockTable :=
  tbl.filter (fun p => !(decide (p.1 = playlistName) && decide (p.2.workerId = workerId)))

/-- Worker `workerId` holds an unexpired lease on `playlistName` at `now`. -/
def holdsLease (tbl : LockTable) (now : Int) (playlistName workerId : String) : Prop :=
  ∃ r, lookupLock tbl playlistName = some r ∧ r.workerId = workerId ∧ now < r.expiresAt

/-! ### Credentials (`db.rs` `save_credential_raw` and the providers'
`persist_token_to_db`) -/

/-- A row of `credentials(provider, token_json, client_id, client_secret,
last_refreshed)`; `provider` is the key. -/
structure CredRow where
  tokenJson : String
  clientId : Option String
  clientSecret : Option String
  lastRefreshed : Int
deriving DecidableEq

/-- The `credentials` table, keyed by provider. -/
abbrev CredTable := List (String × CredRow)

/-- `SELECT token_json, client_id, client_secret FROM credentials WHERE
provider = ?1 LIMIT 1`. -/
def lookupCred : CredTable → String → Option CredRow
  | [], _ => none
  | (k, r) :: rest, p => if p = k then some r else lookupCred rest p

/-- Upsert on the `provider` conflict key. -/
def upsertCred : CredTable → String → CredRow → CredTable
  | [], p, r => [(p, r)]
  | (k, r0) :: rest, p, r =>
    if k = p then (k, r) :: rest else (k, r0) :: upsertCred rest p r

/-- `db.rs` `save_credential_raw`: `INSERT ... ON CONFLICT(provider) DO
UPDATE SET token_json = excluded.token_json, client_id = excluded.client_id,
client_secret = excluded.client_secret, last_refreshed = now` — the update
takes the freshly inserted (`excluded`) values, including a NULL
client_id/client_secret when the caller passes `None`. -/
def save_credential_raw (tbl : CredTable) (provider jsonBlob : String)
    (clientId clientSecret : Option String) (now : Int) : CredTable :=
  upsertCred tbl provider ⟨jsonBlob, clientId, clientSecret, now⟩

/-- `api/spotify.rs` `SpotifyProvider::persist_token_to_db` (lines 249-259):
`db::save_credential_raw(&conn, "spotify", &s, None, None)` — the refreshed
token is persisted with `None` for both client columns. -/
def spotify_persist_token_to_db (tbl : CredTable) (tokenJson : String) (now : Int) : CredTable :=
  save_credential_raw tbl "spotify" tokenJson none none now

/-- `api/tidal.rs` `TidalProvider::persist_token_to_db` (lines 243-263):
passes `Some(client_id)` / `Some(client_secret)` explicitly "so the UPSERT
does not overwrite them with NULL". -/
def tidal_persist_token_to_db (tbl : CredTable) (clientId clientSecret tokenJson : String)
    (now : Int) : CredTable :=
  save_credential_raw tbl "tidal" tokenJson (some clientId) (some clientSecret) now

/-! ### Track cache (`db.rs` `get_track_cache_by_local`,
`upsert_track_cache`; `worker.rs` lines 883-904) -/

/-- A row of `track_cache(provider, local_path, isrc, remote_id,
resolved_at)`.  The columns `db.rs` actually reads and writes are `isrc`,
`local_path` and `remote_id`; `provider` never appears in its SQL. -/
structure TrackCacheRow where
  isrc : Option String
  localPath : String
  remoteId : Option String
  resolvedAt : Int
deriving DecidableEq

/-- The `track_cache` table. -/
abbrev TrackCacheTable := List TrackCacheRow

/-- `db.rs` `get_track_cache_by_local`: `SELECT isrc, remote_id FROM
track_cache WHERE local_path = ?1 LIMIT 1` — the lookup matches on
`local_path` only. -/
def get_track_cache_by_local : TrackCacheTable → String → Option (Option String × Option String)
  | [], _ => none
  | r :: rest, lp =>
    if r.localPath = lp then some (r.isrc, r.remoteId)
    else get_track_cache_by_local rest lp

/-- `db.rs` `upsert_track_cache`: `INSERT ... ON CONFLICT(local_path) DO
UPDATE SET isrc, remote_id, resolved_at` — keyed on `local_path` only. -/
def upsert_track_cache : TrackCacheTable → String → Option String → Option String → Int → TrackCacheTable
  | [], lp, isrc, rid, now => [⟨isrc, lp, rid, now⟩]
  | r :: rest, lp, isrc, rid, now =>
    if r.localPath = lp then ⟨isrc, lp, rid, now⟩ :: rest
    else r :: upsert_track_cache rest lp isrc rid now

set_option linter.unusedVariables false in
/-- The worker's cache consultation (`worker.rs` 883-904): the worker passes
the provider name alongside the local path, but the `db.rs` query it reaches
filters on `local_path` alone, so the provider argument cannot influence the
result. -/
def worker_cache_lookup (tbl : TrackCacheTable) (providerName localPath : String) :
    Option (Option String × Option String) :=
  get_track_cache_by_local tbl localPath

/-- The cache-hit short-circuit of track resolution (`worker.rs` 895-904):
a cached remote URI is used directly and resolution `continue`s before any
ISRC or metadata search; otherwise the provider search pipeline runs.  The
boolean records whether any provider search call happens. -/
def resolve_uses_cache (tbl : TrackCacheTable) (providerName tp : String) :
    Option String × Bool :=
  match worker_cache_lookup tbl providerName tp with
  | some (_, some uri) => (some uri, false)
  | _ => (none, true)

/-! ### Batch application (`worker.rs` `apply_in_batches` lines 1044-1167,
the explicit-rename loop lines 727-817, and the mark-synced tail of
`run_worker_once` lines 1169-1196) -/

/-- The configuration fields the batch applier reads
(`max_retries_on_error`, `max_batch_size_spotify`). -/
structure Cfg where
  maxRetriesOnError : Nat
  maxBatchSize : Nat
deriving DecidableEq

/-- Observable side effects of one reconcile pass, in order: provider calls,
sleeps, playlist-map writes and event-queue writes. -/
inductive Action where
  | callAddTracks (playlistId : String) (chunk : List String)
  | callRemoveTracks (playlistId : String) (chunk : List String)
  | callEnsurePlaylist (name : String)
  | callRenamePlaylist (playlistId name : String)
  | sleepSec (secs : Nat)
  | upsertPlaylistMap (playlistKey remoteId : String)
  | migratePlaylistMap (fromKey toKey : String)
  | markEventsSynced (ids : List Int)
  | releaseLock (playlistKey : String)
deriving DecidableEq

/-- State threaded through `apply_in_batches`: the playlist id
(`&mut String`, updated on recreate), the per-chunk attempt counter, the
scripted `ensure_playlist` responses not yet consumed, and the log of
performed actions. -/
structure ApplyState where
  playlistId : String
  attempt : Nat
  ensureScript : List (Except String String)
  log : List Action

/-- `uris.chunks(batch_size)`, fueled on the list length (one chunk of at
least one element per step, so the fuel never runs out for `n > 0`). -/
def chunksOfGo : Nat → Nat → List String → List (List String)
  | 0, _, _ => []
  | _ + 1, _, [] => []
  | f + 1, n, x :: xs => (x :: xs).take n :: chunksOfGo f n ((x :: xs).drop n)

/-- `uris.chunks(batch_size)`; Rust panics on a zero chunk size, which the
defaulted `max_batch_size_spotify` never is, so that case is mapped to no
chunks. -/
def chunksOf (n : Nat) (l : List String) : List (List String) :=
  if n = 0 then [] else chunksOfGo l.length n l

/-- The worker's rate-limit detection (`worker.rs` 1087): the error text
contains `rate_limited`, or carries a parseable `retry_after=` token. -/
def isRateLimitMsg (s : String) : Bool :=
  strContains s "rate_limited" || (parseRetryAfter s).isSome

/-- The worker's missing-playlist detection inside `apply_in_batches`
(`worker.rs` 1105): it matches only the TIDAL *add-tracks* 404 message,
also when the failing batch is a remove batch. -/
def isMissingPlaylistAddMsg (s : String) : Bool :=
  strContains s "tidal add tracks failed: 404 Not Found" &&
    strContains s "Playlists with id"

/-- The worker's missing-playlist detection in the two rename loops
(`worker.rs` 658 and 760). -/
def isMissingPlaylistRenameMsg (s : String) : Bool :=
  strContains s "tidal rename failed: 404 Not Found" &&
    strContains s "Playlists with id"

/-- `api/tidal.rs` line 851: the rename error format. -/
def tidalRenameErrMsg (status txt : String) : String :=
  "tidal rename failed: " ++ status ++ " => " ++ txt

/-- `api/tidal.rs` line 908: the add-tracks error format. -/
def tidalAddTracksErrMsg (status txt : String) : String :=
  "tidal add tracks failed: " ++ status ++ " => " ++ txt

/-- `api/tidal.rs` line 987: the remove-tracks error format. -/
def tidalRemoveTracksErrMsg (status txt : String) : String :=
  "tidal remove tracks failed: " ++ status ++ " => " ++ txt

/-- The loop of `apply_in_batches` (`worker.rs` 1057-1165), driven by a
script of provider responses: `bs` answers each `add_tracks` /
`remove_tracks` call in order (an exhausted script answers success), the
state's `ensureScript` answers `ensure_playlist` calls (exhaustion modelled
as success with id `p_recreated`).  One fuel unit is spent per loop
iteration; every iteration consumes a script entry or (script exhausted) a
chunk, so fuel `bs.length + chunks.length` makes the fuel-exhaustion branch
unreachable.  Per chunk: success breaks to the next chunk; a rate-limited
error sleeps the advertised duration (else capped exponential backoff) plus
one second, then retries the same chunk while `attempt < max_retries`; the
TIDAL add-tracks-404 pattern recreates the playlist, upserts the map,
resets `attempt` and retries the same chunk against the new id (recreate
failure aborts with the error); any other error backs off `min(2^attempt,
60)` seconds and retries, giving the chunk up after `max_retries`
attempts. -/
def applyGo (cfg : Cfg) (isAdd : Bool) (playlistKey displayName : String) :
    Nat → List (Except String Unit) → List (List String) → ApplyState →
    Except String Unit × ApplyState
  | _, _, [], st => (.ok (), st)
  | 0, _, _ :: _, st => (.ok (), st)
  | f + 1, bs, chunk :: rest, st =>
    let call : Action :=
      if isAdd then .callAddTracks st.playlistId chunk
      else .callRemoveTracks st.playlistId chunk
    match bs with
    | [] =>
      applyGo cfg isAdd playlistKey displayName f [] rest
        { st with attempt := 0, log := st.log ++ [call] }
    | r :: bs' =>
      let att := st.attempt + 1
      match r with
      | .ok _ =>
        applyGo cfg isAdd playlistKey displayName f bs' rest
          { st with attempt := 0, log := st.log ++ [call] }
      | .error s =>
        if isRateLimitMsg s then
          let wait := (parseRetryAfter s).getD (min (2 ^ (min att 6)) 60)
          if cfg.maxRetriesOnError ≤ att then
            applyGo cfg isAdd playlistKey displayName f bs' rest
              { st with attempt := 0, log := st.log ++ [call, .sleepSec (wait + 1)] }
          else
            applyGo cfg isAdd playlistKey displayName f bs' (chunk :: rest)
              { st with attempt := att, log := st.log ++ [call, .sleepSec (wait + 1)] }
        else if isMissingPlaylistAddMsg s then
          match st.ensureScript with
          | .ok newId :: es =>
            applyGo cfg isAdd playlistKey displayName f bs' (chunk :: rest)
              { playlistId := newId,
                attempt := 0,
                ensureScript := es,
                log := st.log ++ [call, .callEnsurePlaylist displayName,
                  .upsertPlaylistMap playlistKey newId] }
          | .error msg :: es =>
            (.error msg,
              { st with
                ensureScript := es,
                log := st.log ++ [call, .callEnsurePlaylist displayName] })
          | [] =>
            applyGo cfg isAdd playlistKey displayName f bs' (chunk :: rest)
              { playlistId := "p_recreated",
                attempt := 0,
                ensureScript := [],
                log := st.log ++ [call, .callEnsurePlaylist displayName,
                  .upsertPlaylistMap playlistKey "p_recreated"] }
        else if cfg.maxRetriesOnError ≤ att then
          applyGo cfg isAdd playlistKey displayName f bs' rest
            { st with attempt := 0, log := st.log ++ [call] }
        else
          applyGo cfg isAdd playlistKey displayName f bs' (chunk :: rest)
            { st with
              attempt := att,
              log := st.log ++ [call, .sleepSec (min (2 ^ att) 60)] }

/-- `worker.rs` `apply_in_batches` (lines 1044-1167): returns immediately on
an empty uri list, otherwise chunks the uris by `max_batch_size_spotify`
and runs the loop. -/
def apply_in_batches (cfg : Cfg) (isAdd : Bool)
    (playlistKey displayName playlistId : String) (uris : List String)
    (batchScript : List (Except String Unit))
    (ensureScript : List (Except String String)) : Except String Unit × ApplyState :=
  if uris.isEmpty then (.ok (), ⟨playlistId, 0, ensureScript, []⟩)
  else
    applyGo cfg isAdd playlistKey displayName
      (batchScript.length + (chunksOf cfg.maxBatchSize uris).length)
      batchScript (chunksOf cfg.maxBatchSize uris)
      ⟨playlistId, 0, ensureScript, []⟩

/-- The tail of `run_worker_once`'s per-(playlist, provider) body
(`worker.rs` 1169-1196): apply removes, then adds, both through
`apply_in_batches` whose errors are only logged; then unconditionally mark
the originating queue events synced and release the lease. -/
def worker_batch_phase (cfg : Cfg) (playlistKey displayName playlistId : String)
    (removeUris addUris : List String)
    (removeScript addScript : List (Except String Unit))
    (ensureScriptR ensureScriptA : List (Except String String))
    (originalIds : List Int) : List Action :=
  let r1 := apply_in_batches cfg false playlistKey displayName playlistId
    removeUris removeScript ensureScriptR
  let r2 := apply_in_batches cfg true playlistKey displayName r1.2.playlistId
    addUris addScript ensureScriptA
  r1.2.log ++ r2.2.log ++
    [.markEventsSynced originalIds, .releaseLock playlistKey]

/-- The explicit-rename loop of `run_worker_once` (`worker.rs` 727-817):
each attempt calls `rename_playlist`; success migrates the playlist-map key
to the rename target and stops; a TIDAL rename-404 recreates the playlist
under the new remote name, upserts the map with the new id and stops
(recreate failure also stops, after logging); any other error backs off
`2^attempt` seconds up to `max_retries_on_error`.  `rs` scripts the rename
responses (exhaustion answers success), `es` the `ensure_playlist`
responses.  Returns the final remote id and the action log. -/
def rename_loop (cfg : Cfg) (playlistKey toKey newRemoteName : String) :
    List (Except String Unit) → List (Except String String) → Nat → String →
    List Action → String × List Action
  | [], _, _, pid, log =>
    (pid, log ++ [.callRenamePlaylist pid newRemoteName,
      .migratePlaylistMap playlistKey toKey])
  | .ok _ :: _, _, _, pid, log =>
    (pid, log ++ [.callRenamePlaylist pid newRemoteName,
      .migratePlaylistMap playlistKey toKey])
  | .error s :: rs, es, attempt, pid, log =>
    let att := attempt + 1
    let log1 := log ++ [.callRenamePlaylist pid newRemoteName]
    if isMissingPlaylistRenameMsg s then
      match es with
      | .ok newId :: _ =>
        (newId, log1 ++ [.callEnsurePlaylist newRemoteName,
          .upsertPlaylistMap playlistKey newId])
      | .error _ :: _ => (pid, log1)
      | [] =>
        ("p_recreated", log1 ++ [.callEnsurePlaylist newRemoteName,
          .upsertPlaylistMap playlistKey "p_recreated"])
    else if cfg.maxRetriesOnError ≤ att then (pid, log1)
    else
      rename_loop cfg playlistKey toKey newRemoteName rs es att pid
        (log1 ++ [.sleepSec (2 ^ att)])

/-! ### Lemmas about the `track_state` association list -/

theorem lookupTS_eraseTS (m : TrackState) (u w : String) :
    lookupTS (eraseTS m u) w = if w = u then none else lookupTS m w := by
  induction m with
  | nil => simp [eraseTS, lookupTS]
  | cons p rest ih =>
    obtain ⟨k, v⟩ := p
    by_cases hk : k = u
    · subst hk
      rw [eraseTS, if_pos rfl, ih]
      by_cases hw : w = k
      · simp [hw]
      · simp [hw, lookupTS]
    · rw [eraseTS, if_neg hk]
      by_cases hw : w = k
      · subst hw
        have hwu : w ≠ u := fun h => hk h
        simp [lookupTS, hwu]
      · simp [lookupTS, hw, ih]

theorem lookupTS_insertTS (m : TrackState) (u : String) (v : TrackOp) (w : String) :
    lookupTS (insertTS m u v) w = if w = u then some v else lookupTS m w := by
  unfold insertTS
  by_cases hw : w = u
  · simp [lookupTS, hw]
  · simp [lookupTS, hw, lookupTS_eraseTS]

theorem lookup_eq_none_of_not_mem_keys {m : TrackState} {u : String}
    (h : u ∉ keysTS m) : lookupTS m u = none := by
  induction m with
  | nil => simp [lookupTS]
  | cons p rest ih =>
    obtain ⟨k, v⟩ := p
    simp only [keysTS, List.map_cons, List.mem_cons] at h
    push_neg at h
    simp [lookupTS, h.1, ih (by simpa [keysTS] using h.2)]

theorem lookup_isSome_of_mem {m : TrackState} {k : String} {v : TrackOp}
    (h : (k, v) ∈ m) : (lookupTS m k).isSome := by
  induction m with
  | nil => simp at h
  | cons p rest ih =>
    obtain ⟨k', v'⟩ := p
    rcases List.mem_cons.mp h with h1 | h2
    · cases h1
      simp [lookupTS]
    · by_cases hk : k = k'
      · simp [lookupTS, hk]
      · simpa [lookupTS, hk] using ih h2

theorem mem_keys_of_mem_keys_eraseTS {m : TrackState} {u w : String}
    (h : w ∈ keysTS (eraseTS m u)) : w ∈ keysTS m := by
  induction m with
  | nil => simp [eraseTS, keysTS] at h
  | cons p rest ih =>
    obtain ⟨k, v⟩ := p
    by_cases hk : k = u
    · simp only [eraseTS, if_pos hk] at h
      exact List.mem_cons.mpr (Or.inr (ih h))
    · simp only [eraseTS, if_neg hk, keysTS, List.map_cons, List.mem_cons] at h ⊢
      rcases h with h | h
      · exact Or.inl h
      · exact Or.inr (ih h)

theorem not_mem_keys_eraseTS (m : TrackState) (u : String) :
    u ∉ keysTS (eraseTS m u) := by
  induction m with
  | nil => simp [eraseTS, keysTS]
  | cons p rest ih =>
    obtain ⟨k, v⟩ := p
    by_cases hk : k = u
    · simpa [eraseTS, hk] using ih
    · simp only [eraseTS, if_neg hk, keysTS, List.map_cons, List.mem_cons]
      rintro (h | h)
      · exact hk h.symm
      · exact ih h

theorem nodup_eraseTS {m : TrackState} (u : String) (h : NodupKeys m) :
    NodupKeys (eraseTS m u) := by
  induction m with
  | nil => simpa [eraseTS] using h
  | cons p rest ih =>
    obtain ⟨k, v⟩ := p
    simp only [NodupKeys, keysTS, List.map_cons, List.nodup_cons] at h
    by_cases hk : k = u
    · simpa [eraseTS, hk] using ih h.2
    · simp only [eraseTS, if_neg hk, NodupKeys, keysTS, List.map_cons, List.nodup_cons]
      exact ⟨fun hmem => h.1 (mem_keys_of_mem_keys_eraseTS hmem), ih h.2⟩

theorem nodup_insertTS {m : TrackState} (u : String) (v : TrackOp) (h : NodupKeys m) :
    NodupKeys (insertTS m u v) := by
  unfold insertTS
  simp only [NodupKeys, keysTS, List.map_cons, List.nodup_cons]
  exact ⟨not_mem_keys_eraseTS m u, nodup_eraseTS u h⟩

theorem mem_applyTrackOps {m : TrackState} (hnd : NodupKeys m) (s : Finset String)
    (u : String) :
    u ∈ applyTrackOps s m ↔
      (lookupTS m u = some .add ∨ (lookupTS m u = none ∧ u ∈ s)) := by
  induction m generalizing s with
  | nil => simp [applyTrackOps, lookupTS]
  | cons p rest ih =>
    obtain ⟨k, v⟩ := p
    simp only [NodupKeys, keysTS, List.map_cons, List.nodup_cons] at hnd
    have hrest : NodupKeys rest := hnd.2
    cases v with
    | add =>
      have := ih hrest (insert k s)
      by_cases hu : u = k
      · subst hu
        simp only [applyTrackOps, this, lookupTS, if_pos rfl,
          lookup_eq_none_of_not_mem_keys hnd.1, Finset.mem_insert]
        simp
      · simp only [applyTrackOps, this, lookupTS, if_neg hu, Finset.mem_insert]
        constructor
        · rintro (h | ⟨h1, (h2 | h2)⟩)
          · exact Or.inl h
          · exact absurd h2 hu
          · exact Or.inr ⟨h1, h2⟩
        · rintro (h | ⟨h1, h2⟩)
          · exact Or.inl h
          · exact Or.inr ⟨h1, Or.inr h2⟩
    | remove =>
      have := ih hrest (s.erase k)
      by_cases hu : u = k
      · subst hu
        simp only [applyTrackOps, this, lookupTS, if_pos rfl,
          lookup_eq_none_of_not_mem_keys hnd.1, Finset.mem_erase]
        simp
      · simp only [applyTrackOps, this, lookupTS, if_neg hu, Finset.mem_erase]
        constructor
        · rintro (h | ⟨h1, h2, h3⟩)
          · exact Or.inl h
          · exact Or.inr ⟨h1, h3⟩
        · rintro (h | ⟨h1, h2⟩)
          · exact Or.inl h
          · exact Or.inr ⟨h1, hu, h2⟩

/-! ### Structure of `collapse_events`' output -/

theorem hasDelete_append (a b : List Event) :
    hasDelete (a ++ b) = (hasDelete a || hasDelete b) := by
  simp [hasDelete, List.any_append]

theorem hasDelete_mkTrackEvents (m : TrackState) :
    hasDelete (m.map mkTrackEvent) = false := by
  induction m with
  | nil => simp [hasDelete]
  | cons p rest ih =>
    obtain ⟨k, v⟩ := p
    cases v <;> simpa [hasDelete, mkTrackEvent, List.any_cons] using ih

theorem collapseGo_fst_hasDelete :
    ∀ (B acc : List Event) (m : TrackState),
      hasDelete (collapseGo B acc m).1 = (hasDelete acc || hasDelete B) := by
  intro B
  induction B with
  | nil => intro acc m; simp [collapseGo, hasDelete]
  | cons e rest ih =>
    intro acc m
    cases ha : e.action with
    | add =>
      cases ht : e.trackPath with
      | none =>
        simp only [collapseGo, ha, ht]
        rw [ih]
        simp [hasDelete, ha]
      | some t =>
        cases hl : lookupTS m t with
        | none =>
          simp only [collapseGo, ha, ht, hl]
          rw [ih]
          simp [hasDelete, ha]
        | some op =>
          cases op <;>
            (simp only [collapseGo, ha, ht, hl]
             rw [ih]
             simp [hasDelete, ha])
    | remove =>
      cases ht : e.trackPath with
      | none =>
        simp only [collapseGo, ha, ht]
        rw [ih]
        simp [hasDelete, ha]
      | some t =>
        cases hl : lookupTS m t with
        | none =>
          simp only [collapseGo, ha, ht, hl]
          rw [ih]
          simp [hasDelete, ha]
        | some op =>
          cases op <;>
            (simp only [collapseGo, ha, ht, hl]
             rw [ih]
             simp [hasDelete, ha])
    | renameAct f t =>
      simp only [collapseGo, ha]
      rw [ih]
      simp [hasDelete, ha, List.any_append, Bool.or_assoc]
    | create =>
      simp only [collapseGo, ha]
      rw [ih]
      simp [hasDelete, ha, List.any_append, Bool.or_assoc]
    | delete =>
      simp only [collapseGo, ha]
      rw [ih]
      simp [hasDelete, ha, List.any_append, Bool.or_assoc]

theorem hasDelete_collapse_events (B : List Event) :
    hasDelete (collapse_events B) = hasDelete B := by
  rw [collapse_events, hasDelete_append, collapseGo_fst_hasDelete, hasDelete_mkTrackEvents]
  simp [hasDelete]

theorem collapseGo_fst_mem :
    ∀ (B acc : List Event) (m : TrackState) (e : Event),
      e ∈ (collapseGo B acc m).1 →
      e ∈ acc ∨ (¬ e.action = .add ∧ ¬ e.action = .remove) := by
  intro B
  induction B with
  | nil => intro acc m e he; exact Or.inl (by simpa [collapseGo] using he)
  | cons ev rest ih =>
    intro acc m e he
    cases ha : ev.action with
    | add =>
      cases ht : ev.trackPath with
      | none => exact ih acc m e (by simpa [collapseGo, ha, ht] using he)
      | some t =>
        cases hl : lookupTS m t with
        | none => exact ih acc (insertTS m t .add) e (by simpa [collapseGo, ha, ht, hl] using he)
        | some op =>
          cases op
          · exact ih acc (insertTS m t .add) e (by simpa [collapseGo, ha, ht, hl] using he)
          · exact ih acc (eraseTS m t) e (by simpa [collapseGo, ha, ht, hl] using he)
    | remove =>
      cases ht : ev.trackPath with
      | none => exact ih acc m e (by simpa [collapseGo, ha, ht] using he)
      | some t =>
        cases hl : lookupTS m t with
        | none => exact ih acc (insertTS m t .remove) e (by simpa [collapseGo, ha, ht, hl] using he)
        | some op =>
          cases op
          · exact ih acc (eraseTS m t) e (by simpa [collapseGo, ha, ht, hl] using he)
          · exact ih acc (insertTS m t .remove) e (by simpa [collapseGo, ha, ht, hl] using he)
    | renameAct f t =>
      rcases ih (acc ++ [ev]) m e (by simpa [collapseGo, ha] using he) with h | h
      · rcases List.mem_append.mp h with h1 | h1
        · exact Or.inl h1
        · simp only [List.mem_singleton] at h1
          subst h1
          exact Or.inr (by simp [ha])
      · exact Or.inr h
    | create =>
      rcases ih (acc ++ [ev]) m e (by simpa [collapseGo, ha] using he) with h | h
      · rcases List.mem_append.mp h with h1 | h1
        · exact Or.inl h1
        · simp only [List.mem_singleton] at h1
          subst h1
          exact Or.inr (by simp [ha])
      · exact Or.inr h
    | delete =>
      rcases ih (acc ++ [ev]) m e (by simpa [collapseGo, ha] using he) with h | h
      · rcases List.mem_append.mp h with h1 | h1
        · exact Or.inl h1
        · simp only [List.mem_singleton] at h1
          subst h1
          exact Or.inr (by simp [ha])
      · exact Or.inr h

theorem foldl_applyEvent_id :
    ∀ (ops : List Event) (s : Finset String),
      (∀ e ∈ ops, ¬ e.action = .add ∧ ¬ e.action = .remove) →
      ops.foldl applyEvent s = s := by
  intro ops
  induction ops with
  | nil => intro s _; rfl
  | cons e rest ih =>
    intro s h
    have he := h e (List.mem_cons_self e rest)
    have hstep : applyEvent s e = s := by
      cases ha : e.action with
      | add => exact absurd ha he.1
      | remove => exact absurd ha he.2
      | renameAct f t => cases ht : e.trackPath <;> simp [applyEvent, ha, ht]
      | create => cases ht : e.trackPath <;> simp [applyEvent, ha, ht]
      | delete => cases ht : e.trackPath <;> simp [applyEvent, ha, ht]
    rw [List.foldl_cons, hstep]
    exact ih s (fun e' he' => h e' (List.mem_cons_of_mem e he'))

theorem foldl_map_mkTrackEvent :
    ∀ (m : TrackState) (s : Finset String),
      (m.map mkTrackEvent).foldl applyEvent s = applyTrackOps s m := by
  intro m
  induction m with
  | nil => intro s; rfl
  | cons p rest ih =>
    intro s
    obtain ⟨k, v⟩ := p
    cases v <;> simp [mkTrackEvent, applyEvent, applyTrackOps, ih]

/-- Invariant-preservation core of the collapse/replay equivalence: on a
coherent history, replaying the remaining events equals applying the final
`track_state` to the base set.  The invariant records that the current replay
state is the base state overwritten by the pending map, that a pending `Add`
means the track is absent from the base state, and that a pending `Remove`
means it is present. -/
theorem collapse_core (s0 : Finset String) :
    ∀ (B acc : List Event) (m : TrackState) (s : Finset String),
      NodupKeys m →
      (∀ u, u ∈ s ↔ (lookupTS m u = some .add ∨ (lookupTS m u = none ∧ u ∈ s0))) →
      (∀ u, lookupTS m u = some .add → u ∉ s0) →
      (∀ u, lookupTS m u = some .remove → u ∈ s0) →
      coherent s B = true →
      B.foldl applyEvent s = applyTrackOps s0 (collapseGo B acc m).2 := by
  intro B
  induction B with
  | nil =>
    intro acc m s hnd hJ _ _ _
    simp only [List.foldl_nil, collapseGo]
    exact Finset.ext fun u => (hJ u).trans (mem_applyTrackOps hnd s0 u).symm
  | cons e rest ih =>
    intro acc m s hnd hJ hA hR hcoh
    cases ha : e.action with
    | add =>
      cases ht : e.trackPath with
      | none =>
        rw [List.foldl_cons, show applyEvent s e = s by simp [applyEvent, ha, ht]]
        simp only [collapseGo, ha, ht]
        exact ih acc m s hnd hJ hA hR (by simpa [coherent, ha, ht] using hcoh)
      | some t =>
        have hstep : applyEvent s e = insert t s := by simp [applyEvent, ha, ht]
        have hcoh' : t ∉ s ∧ coherent (insert t s) rest = true := by
          simpa [coherent, ha, ht] using hcoh
        rw [List.foldl_cons, hstep]
        cases hl : lookupTS m t with
        | none =>
          simp only [collapseGo, ha, ht, hl]
          apply ih acc (insertTS m t .add) (insert t s) (nodup_insertTS t .add hnd)
          · intro u
            rw [lookupTS_insertTS]
            by_cases hu : u = t
            · subst hu
              simp
            · simp only [if_neg hu, Finset.mem_insert]
              rw [hJ u]
              simp [hu]
          · intro u hins
            rw [lookupTS_insertTS] at hins
            by_cases hu : u = t
            · subst hu
              have : u ∈ s ↔ u ∈ s0 := by
                rw [hJ u, hl]
                simp
              exact fun hs0 => hcoh'.1 (this.mpr hs0)
            · exact hA u (by simpa [if_neg hu] using hins)
          · intro u hins
            rw [lookupTS_insertTS] at hins
            by_cases hu : u = t
            · subst hu
              simp at hins
            · exact hR u (by simpa [if_neg hu] using hins)
          · exact hcoh'.2
        | some op =>
          cases op with
          | add =>
            exact absurd ((hJ t).mpr (Or.inl hl)) hcoh'.1
          | remove =>
            simp only [collapseGo, ha, ht, hl]
            apply ih acc (eraseTS m t) (insert t s) (nodup_eraseTS t hnd)
            · intro u
              rw [lookupTS_eraseTS]
              by_cases hu : u = t
              · subst hu
                simp [hR u hl]
              · simp only [if_neg hu, Finset.mem_insert]
                rw [hJ u]
                simp [hu]
            · intro u hins
              rw [lookupTS_eraseTS] at hins
              by_cases hu : u = t
              · simp [if_pos hu] at hins
              · exact hA u (by simpa [if_neg hu] using hins)
            · intro u hins
              rw [lookupTS_eraseTS] at hins
              by_cases hu : u = t
              · simp [if_pos hu] at hins
              · exact hR u (by simpa [if_neg hu] using hins)
            · exact hcoh'.2
    | remove =>
      cases ht : e.trackPath with
      | none =>
        rw [List.foldl_cons, show applyEvent s e = s by simp [applyEvent, ha, ht]]
        simp only [collapseGo, ha, ht]
        exact ih acc m s hnd hJ hA hR (by simpa [coherent, ha, ht] using hcoh)
      | some t =>
        have hstep : applyEvent s e = s.erase t := by simp [applyEvent, ha, ht]
        have hcoh' : t ∈ s ∧ coherent (s.erase t) rest = true := by
          simpa [coherent, ha, ht] using hcoh
        rw [List.foldl_cons, hstep]
        cases hl : lookupTS m t with
        | none =>
          simp only [collapseGo, ha, ht, hl]
          apply ih acc (insertTS m t .remove) (s.erase t) (nodup_insertTS t .remove hnd)
          · intro u
            rw [lookupTS_insertTS]
            by_cases hu : u = t
            · subst hu
              simp
            · simp only [if_neg hu, Finset.mem_erase]
              rw [hJ u]
              simp [hu]
          · intro u hins
            rw [lookupTS_insertTS] at hins
            by_cases hu : u = t
            · subst hu
              simp at hins
            · exact hA u (by simpa [if_neg hu] using hins)
          · intro u hins
            rw [lookupTS_insertTS] at hins
            by_cases hu : u = t
            · subst hu
              have : u ∈ s ↔ u ∈ s0 := by
                rw [hJ u, hl]
                simp
              exact this.mp hcoh'.1
            · exact hR u (by simpa [if_neg hu] using hins)
          · exact hcoh'.2
        | some op =>
          cases op with
          | remove =>
            have : t ∉ s := by
              intro hts
              rcases (hJ t).mp hts with h | h
              · rw [hl] at h
                simp at h
              · rw [hl] at h
                simp at h
            exact absurd hcoh'.1 this
          | add =>
            simp only [collapseGo, ha, ht, hl]
            apply ih acc (eraseTS m t) (s.erase t) (nodup_eraseTS t hnd)
            · intro u
              rw [lookupTS_eraseTS]
              by_cases hu : u = t
              · subst hu
                simp [hA u hl]
              · simp only [if_neg hu, Finset.mem_erase]
                rw [hJ u]
                simp [hu]
            · intro u hins
              rw [lookupTS_eraseTS] at hins
              by_cases hu : u = t
              · simp [if_pos hu] at hins
              · exact hA u (by simpa [if_neg hu] using hins)
            · intro u hins
              rw [lookupTS_eraseTS] at hins
              by_cases hu : u = t
              · simp [if_pos hu] at hins
              · exact hR u (by simpa [if_neg hu] using hins)
            · exact hcoh'.2
    | renameAct f t =>
      rw [List.foldl_cons, show applyEvent s e = s by cases ht : e.trackPath <;> simp [applyEvent, ha, ht]]
      simp only [collapseGo, ha]
      exact ih (acc ++ [e]) m s hnd hJ hA hR (by
        cases ht : e.trackPath <;> simpa [coherent, ha, ht] using hcoh)
    | create =>
      rw [List.foldl_cons, show applyEvent s e = s by cases ht : e.trackPath <;> simp [applyEvent, ha, ht]]
      simp only [collapseGo, ha]
      exact ih (acc ++ [e]) m s hnd hJ hA hR (by
        cases ht : e.trackPath <;> simpa [coherent, ha, ht] using hcoh)
    | delete =>
      rw [List.foldl_cons, show applyEvent s e = s by cases ht : e.trackPath <;> simp [applyEvent, ha, ht]]
      simp only [collapseGo, ha]
      exact ih (acc ++ [e]) m s hnd hJ hA hR (by
        cases ht : e.trackPath <;> simpa [coherent, ha, ht] using hcoh)

/-- The pending entry `collapse_events` keeps for a track is determined by
the batch's operation subsequence on that track, via the cancellation state
machine `stepOp`. -/
theorem collapseGo_lookup :
    ∀ (B acc : List Event) (m : TrackState) (t : String),
      lookupTS (collapseGo B acc m).2 t = (opsOn t B).foldl stepOp (lookupTS m t) := by
  intro B
  induction B with
  | nil => intro acc m t; simp [collapseGo, opsOn]
  | cons e rest ih =>
    intro acc m t
    cases ha : e.action with
    | add =>
      cases ht : e.trackPath with
      | none =>
        simp only [collapseGo, ha, ht]
        rw [ih]
        simp [opsOn, ha, ht]
      | some u =>
        by_cases hu : u = t
        · subst hu
          cases hl : lookupTS m u with
          | none =>
            simp only [collapseGo, ha, ht, hl]
            rw [ih]
            simp [opsOn, ha, ht, lookupTS_insertTS, hl, stepOp]
          | some op =>
            cases op <;>
              (simp only [collapseGo, ha, ht, hl]
               rw [ih]
               simp [opsOn, ha, ht, lookupTS_insertTS, lookupTS_eraseTS, hl, stepOp])
        · have hut : ¬ t = u := fun h => hu h.symm
          cases hl : lookupTS m u with
          | none =>
            simp only [collapseGo, ha, ht, hl]
            rw [ih]
            simp [opsOn, ha, ht, hu, lookupTS_insertTS, hut]
          | some op =>
            cases op <;>
              (simp only [collapseGo, ha, ht, hl]
               rw [ih]
               simp [opsOn, ha, ht, hu, lookupTS_insertTS, lookupTS_eraseTS, hut])
    | remove =>
      cases ht : e.trackPath with
      | none =>
        simp only [collapseGo, ha, ht]
        rw [ih]
        simp [opsOn, ha, ht]
      | some u =>
        by_cases hu : u = t
        · subst hu
          cases hl : lookupTS m u with
          | none =>
            simp only [collapseGo, ha, ht, hl]
            rw [ih]
            simp [opsOn, ha, ht, lookupTS_insertTS, hl, stepOp]
          | some op =>
            cases op <;>
              (simp only [collapseGo, ha, ht, hl]
               rw [ih]
               simp [opsOn, ha, ht, lookupTS_insertTS, lookupTS_eraseTS, hl, stepOp])
        · have hut : ¬ t = u := fun h => hu h.symm
          cases hl : lookupTS m u with
          | none =>
            simp only [collapseGo, ha, ht, hl]
            rw [ih]
            simp [opsOn, ha, ht, hu, lookupTS_insertTS, hut]
          | some op =>
            cases op <;>
              (simp only [collapseGo, ha, ht, hl]
               rw [ih]
               simp [opsOn, ha, ht, hu, lookupTS_insertTS, lookupTS_eraseTS, hut])
    | renameAct f t2 =>
      simp only [collapseGo, ha]
      rw [ih]
      simp [opsOn, ha]
    | create =>
      simp only [collapseGo, ha]
      rw [ih]
      simp [opsOn, ha]
    | delete =>
      simp only [collapseGo, ha]
      rw [ih]
      simp [opsOn, ha]

/-- **C2** (amended).  Replaying the collapsed batch yields the same final
remote track set as replaying the original batch, for every batch that is a
coherent history of the starting state (each `Add` applies to a track
currently absent, each `Remove` to a track currently present).  Operations on
distinct tracks commute in the track-set semantics, matching the spec's
commutativity proviso; without coherence the equivalence fails (see the
counterexample). -/
theorem collapse_events_replay_equiv (s : Finset String) (B : List Event)
    (h : coherent s B = true) :
    applyBatch s B = applyBatch s (collapse_events B) := by
  unfold applyBatch
  rw [hasDelete_collapse_events]
  cases hd : hasDelete B with
  | true => rfl
  | false =>
    simp only [Bool.false_eq_true, if_false]
    rw [collapse_events, List.foldl_append]
    have h1 : (collapseGo B [] []).1.foldl applyEvent s = s := by
      apply foldl_applyEvent_id
      intro e he
      rcases collapseGo_fst_mem B [] [] e he with h' | h'
      · simp at h'
      · exact h'
    rw [h1, foldl_map_mkTrackEvent]
    exact collapse_core s B [] [] s (by simp [NodupKeys, keysTS])
      (fun u => by simp [lookupTS]) (fun u hu => by simp [lookupTS] at hu)
      (fun u hu => by simp [lookupTS] at hu) h

/-- **C2** (counterexample).  On a remote state already containing the track,
the batch `[Add t, Remove t]` replays to the empty set, but its collapse is
the empty batch, which leaves the track in place: collapse/replay equivalence
does not hold for an arbitrary playlist state, even though add/remove
operations on distinct tracks commute. -/
theorem collapse_events_replay_counterexample :
    applyBatch {"t.mp3"} [mkEv 1 .add "t.mp3", mkEv 2 .remove "t.mp3"] ≠
      applyBatch {"t.mp3"} (collapse_events [mkEv 1 .add "t.mp3", mkEv 2 .remove "t.mp3"]) := by
  decide

/-- Witness for `collapse_events_replay_equiv` at a concrete coherent batch. -/
theorem collapse_events_replay_equiv_witness :
    coherent ∅ [mkEv 1 .add "a.mp3", mkEv 2 .remove "a.mp3"] = true ∧
      applyBatch ∅ [mkEv 1 .add "a.mp3", mkEv 2 .remove "a.mp3"] =
        applyBatch ∅ (collapse_events [mkEv 1 .add "a.mp3", mkEv 2 .remove "a.mp3"]) :=
  ⟨by decide, collapse_events_replay_equiv ∅ _ (by decide)⟩

/-- **C9** (amended).  When one `Add(t)` and one `Remove(t)` (in either
order) are the only operations on `t` in the batch, `collapse_events` emits
no add or remove event for `t`: the pair cancels.  (If the batch performs
further operations on `t` outside the pair, an event for `t` can survive —
see the counterexample.) -/
theorem collapse_events_pair_cancels (B : List Event) (t : String)
    (h : opsOn t B = [.add, .remove] ∨ opsOn t B = [.remove, .add]) :
    ∀ e ∈ collapse_events B, ¬((e.action = .add ∨ e.action = .remove) ∧ e.trackPath = some t) := by
  intro e he hcontra
  rw [collapse_events] at he
  rcases List.mem_append.mp he with h1 | h1
  · rcases collapseGo_fst_mem B [] [] e h1 with h2 | h2
    · simp at h2
    · rcases hcontra.1 with h3 | h3
      · exact h2.1 h3
      · exact h2.2 h3
  · obtain ⟨⟨k, v⟩, hkv, he2⟩ := List.mem_map.mp h1
    have hk : k = t := by
      have := hcontra.2
      rw [← he2] at this
      simpa [mkTrackEvent] using this
    subst hk
    have hsome := lookup_isSome_of_mem hkv
    have hnone : lookupTS (collapseGo B [] []).2 k = none := by
      rw [collapseGo_lookup]
      rcases h with h | h <;> simp [h, lookupTS, stepOp]
    rw [hnone] at hsome
    simp at hsome

/-- **C9** (counterexample).  In the batch
`[Add t, Remove t, Add t]` the first two events are an adjacent
`Add(t)`/`Remove(t)` pair with no intervening operation on `t`, yet
`collapse_events` still emits an `Add` event for `t` (the third event
re-registers it), so the claim "both events are absent from the output" is
false as universally stated. -/
theorem collapse_events_pair_counterexample :
    ((collapse_events [mkEv 1 .add "t.mp3", mkEv 2 .remove "t.mp3", mkEv 3 .add "t.mp3"]).any
      (fun e => decide (e.action = .add) && decide (e.trackPath = some "t.mp3"))) = true := by
  decide

/-! ### Desired-set reconciliation: claims C1 -/

theorem mem_dedupAux :
    ∀ (l seen : List String) (u : String), u ∈ dedupAux l seen ↔ (u ∈ l ∧ u ∉ seen) := by
  intro l
  induction l with
  | nil => intro seen u; simp [dedupAux]
  | cons x t ih =>
    intro seen u
    by_cases hx : x ∈ seen
    · rw [dedupAux, if_pos hx, ih]
      constructor
      · rintro ⟨h1, h2⟩
        exact ⟨List.mem_cons_of_mem x h1, h2⟩
      · rintro ⟨h1, h2⟩
        rcases List.mem_cons.mp h1 with rfl | h1
        · exact absurd hx h2
        · exact ⟨h1, h2⟩
    · rw [dedupAux, if_neg hx]
      constructor
      · intro h
        rcases List.mem_cons.mp h with rfl | h1
        · exact ⟨List.mem_cons_self u t, hx⟩
        · rw [ih] at h1
          refine ⟨List.mem_cons_of_mem x h1.1, fun hu => h1.2 (List.mem_cons_of_mem x hu)⟩
      · rintro ⟨h1, h2⟩
        rcases List.mem_cons.mp h1 with rfl | h1
        · exact List.mem_cons_self u _
        · by_cases hux : u = x
          · subst hux
            exact List.mem_cons_self u _
          · refine List.mem_cons_of_mem x ?_
            rw [ih]
            exact ⟨h1, by simp [hux, h2]⟩

theorem mem_desired_remote_uris (lines : List String) (resolve : String → Option String)
    (u : String) :
    u ∈ desired_remote_uris lines resolve ↔ u ∈ resolvedLines lines resolve := by
  rw [desired_remote_uris, mem_dedupAux]
  simp

/-- **C1** (amended).  When the desired set read from the local `.m3u` is
non-empty, applying the seeded diff (`to_add = desired \ current`,
`to_remove = current \ desired`, removes before adds) makes the remote track
set equal, as a set, to the URIs the local playlist lines resolve to —
excluding lines whose resolution fails.  When the desired set is empty the
worker skips the diff (`run_worker_once` seeds `reconcile_desired` only `if
!desired.is_empty()`), so the claim's "for every desired set including the
empty one" fails: see the counterexample. -/
theorem reconcile_diff_achieves_desired (lines : List String)
    (resolve : String → Option String) (current : List String)
    (hne : desired_remote_uris lines resolve ≠ []) :
    ∀ u, u ∈ applyReconcile current
            (seedReconcileDiff (desired_remote_uris lines resolve) current).2
            (seedReconcileDiff (desired_remote_uris lines resolve) current).1 ↔
          u ∈ resolvedLines lines resolve := by
  intro u
  have hemp : (desired_remote_uris lines resolve).isEmpty = false := by
    cases hd : desired_remote_uris lines resolve with
    | nil => exact absurd hd hne
    | cons a l => simp [List.isEmpty]
  rw [← mem_desired_remote_uris lines resolve u]
  unfold seedReconcileDiff
  rw [hemp]
  simp only [Bool.false_eq_true, if_false, applyReconcile, List.mem_append, List.mem_filter,
    decide_eq_true_eq]
  by_cases hc : u ∈ current <;> by_cases hd : u ∈ desired_remote_uris lines resolve <;>
    simp [hc, hd]

/-- **C1** (counterexample).  With an empty local playlist (desired set `[]`)
and a remote playlist currently containing one track, the worker seeds no
diff at all (`reconcile_desired` stays `None`), so the remote track survives
the pass: the remote set `[spotify:track:1]` is not equal to the desired set
`[]`, refuting the claim's "for every desired set including the empty one". -/
theorem reconcile_diff_empty_desired_counterexample :
    desired_remote_uris [] (fun _ => none) = [] ∧
      applyReconcile ["spotify:track:1"]
        (seedReconcileDiff (desired_remote_uris [] (fun _ => none)) ["spotify:track:1"]).2
        (seedReconcileDiff (desired_remote_uris [] (fun _ => none)) ["spotify:track:1"]).1
      = ["spotify:track:1"] := by
  constructor
  · rfl
  · rfl

/-- Witness for `reconcile_diff_achieves_desired` at a concrete non-empty
desired set. -/
theorem reconcile_diff_achieves_desired_witness :
    desired_remote_uris ["a.mp3"] (fun _ => some "uri:1") ≠ [] ∧
      ∀ u, u ∈ applyReconcile ["uri:2"]
              (seedReconcileDiff (desired_remote_uris ["a.mp3"] (fun _ => some "uri:1")) ["uri:2"]).2
              (seedReconcileDiff (desired_remote_uris ["a.mp3"] (fun _ => some "uri:1")) ["uri:2"]).1 ↔
            u ∈ resolvedLines ["a.mp3"] (fun _ => some "uri:1") :=
  ⟨by decide, reconcile_diff_achieves_desired ["a.mp3"] (fun _ => some "uri:1") ["uri:2"] (by decide)⟩

/-- Witness for `collapse_events_pair_cancels` at a concrete batch. -/
theorem collapse_events_pair_cancels_witness :
    (opsOn "a.mp3" [mkEv 1 .add "a.mp3", mkEv 2 .remove "a.mp3"] = [.add, .remove] ∨
      opsOn "a.mp3" [mkEv 1 .add "a.mp3", mkEv 2 .remove "a.mp3"] = [.remove, .add]) ∧
      ∀ e ∈ collapse_events [mkEv 1 .add "a.mp3", mkEv 2 .remove "a.mp3"],
        ¬((e.action = .add ∨ e.action = .remove) ∧ e.trackPath = some "a.mp3") :=
  ⟨Or.inl (by decide), collapse_events_pair_cancels _ _ (Or.inl (by decide))⟩

/-! ### Processing leases: claims C7 and C10 -/

theorem lookupLock_upsertLock :
    ∀ (tbl : LockTable) (pl : String) (r : LockRow) (w : String),
      lookupLock (upsertLock tbl pl r) w = if w = pl then some r else lookupLock tbl w := by
  intro tbl
  induction tbl with
  | nil =>
    intro pl r w
    by_cases hw : w = pl <;> simp [upsertLock, lookupLock, hw]
  | cons p rest ih =>
    intro pl r w
    obtain ⟨k, r0⟩ := p
    by_cases hk : k = pl
    · subst hk
      by_cases hw : w = k <;> simp [upsertLock, lookupLock, hw]
    · rw [upsertLock, if_neg hk]
      by_cases hw : w = k
      · subst hw
        simp [lookupLock, hk]
      · simp [lookupLock, hw, ih]

/-- **C7**.  At most one worker holds an unexpired lease on a playlist key
(the `processing_locks` table holds at most one row per key); while a lease
with `now < expires_at` exists, `try_acquire_playlist_lock` returns `false`
for every caller and leaves the table unchanged; a lease whose `expires_at`
is not in the future may be taken over by any worker, which then holds the
lease `(workerId, now, now + ttl)`. -/
theorem lease_mutual_exclusion (tbl : LockTable) (now : Int) (pl : String) (ttl : Int) :
    (∀ w1 w2, holdsLease tbl now pl w1 → holdsLease tbl now pl w2 → w1 = w2) ∧
    (∀ r, lookupLock tbl pl = some r → now < r.expiresAt →
      ∀ w, try_acquire_playlist_lock tbl now pl w ttl = (false, tbl)) ∧
    (∀ r, lookupLock tbl pl = some r → r.expiresAt ≤ now → ∀ w,
      (try_acquire_playlist_lock tbl now pl w ttl).1 = true ∧
      lookupLock (try_acquire_playlist_lock tbl now pl w ttl).2 pl =
        some ⟨w, now, now + ttl⟩) := by
  refine ⟨?_, ?_, ?_⟩
  · rintro w1 w2 ⟨r1, h1, hw1, _⟩ ⟨r2, h2, hw2, _⟩
    rw [h1] at h2
    cases h2
    rw [← hw1, ← hw2]
  · intro r hr hlt w
    simp only [try_acquire_playlist_lock, hr]
    rw [if_pos (show r.expiresAt > now from hlt)]
  · intro r hr hle w
    have hnotlt : ¬ (r.expiresAt > now) := not_lt.mpr hle
    simp only [try_acquire_playlist_lock, hr]
    rw [if_neg hnotlt]
    exact ⟨rfl, by rw [lookupLock_upsertLock]; simp⟩

/-- Witness for `lease_mutual_exclusion` at a concrete table: one unexpired
lease held by `w1`, blocking `w2`, and an expired lease taken over. -/
theorem lease_mutual_exclusion_witness :
    (holdsLease [("pl1", ⟨"w1", 0, 100⟩)] 50 "pl1" "w1" → True) ∧
    try_acquire_playlist_lock [("pl1", ⟨"w1", 0, 100⟩)] 50 "pl1" "w2" 600 =
      (false, [("pl1", ⟨"w1", 0, 100⟩)]) ∧
    (try_acquire_playlist_lock [("pl1", ⟨"w1", 0, 100⟩)] 100 "pl1" "w2" 600).1 = true ∧
    lookupLock (try_acquire_playlist_lock [("pl1", ⟨"w1", 0, 100⟩)] 100 "pl1" "w2" 600).2 "pl1" =
      some ⟨"w2", 100, 700⟩ := by
  refine ⟨fun _ => trivial, ?_, ?_⟩
  · exact (lease_mutual_exclusion [("pl1", ⟨"w1", 0, 100⟩)] 50 "pl1" 600).2.1
      ⟨"w1", 0, 100⟩ rfl (by decide) "w2"
  · exact (lease_mutual_exclusion [("pl1", ⟨"w1", 0, 100⟩)] 100 "pl1" 600).2.2
      ⟨"w1", 0, 100⟩ rfl (by decide) "w2"

/-- **C10**.  `release_playlist_lock` deletes a row only when both the
playlist key and the caller's worker id match: a release by a non-owner
leaves the owner's row in place unchanged, and rows of other playlist keys
are never affected, so every lock-table operation preserves another worker's
unexpired lease. -/
theorem release_lock_only_owner (tbl : LockTable) (pl wid : String) :
    (∀ r, lookupLock tbl pl = some r → r.workerId ≠ wid →
      lookupLock (release_playlist_lock tbl pl wid) pl = some r) ∧
    (∀ u, u ≠ pl → lookupLock (release_playlist_lock tbl pl wid) u = lookupLock tbl u) := by
  constructor
  · induction tbl with
    | nil => intro r hr; simp [lookupLock] at hr
    | cons p rest ih =>
      intro r hr hwid
      obtain ⟨k, r0⟩ := p
      by_cases hk : pl = k
      · subst hk
        rw [lookupLock, if_pos rfl] at hr
        cases hr
        simp only [release_playlist_lock, List.filter_cons]
        simp [hwid, lookupLock]
      · rw [lookupLock, if_neg hk] at hr
        simp only [release_playlist_lock, List.filter_cons] at ih ⊢
        by_cases hkw : r0.workerId = wid
        · by_cases hkp : k = pl
          · have hkeep : (!(decide ((k, r0).1 = pl) && decide ((k, r0).2.workerId = wid))) = false := by
              simp [hkw, hkp]
            rw [hkeep]
            simp only [Bool.false_eq_true, if_false]
            exact ih r hr hwid
          · have hkeep : (!(decide ((k, r0).1 = pl) && decide ((k, r0).2.workerId = wid))) = true := by
              simp [hkp]
            rw [hkeep]
            simp only [if_true]
            rw [lookupLock, if_neg hk]
            exact ih r hr hwid
        · have hkeep : (!(decide ((k, r0).1 = pl) && decide ((k, r0).2.workerId = wid))) = true := by
            simp [hkw]
          rw [hkeep]
          simp only [if_true]
          rw [lookupLock, if_neg hk]
          exact ih r hr hwid
  · induction tbl with
    | nil => intro u _; rfl
    | cons p rest ih =>
      intro u hu
      obtain ⟨k, r0⟩ := p
      simp only [release_playlist_lock, List.filter_cons] at ih ⊢
      by_cases hkp : k = pl
      · subst hkp
        have huk : ¬ u = k := fun h => hu h
        by_cases hkw : r0.workerId = wid
        · have hkeep : (!(decide ((k, r0).1 = k) && decide ((k, r0).2.workerId = wid))) = false := by
            simp [hkw]
          rw [hkeep]
          simp only [Bool.false_eq_true, if_false]
          rw [show lookupLock ((k, r0) :: rest) u = lookupLock rest u by
            simp only [lookupLock, if_neg huk]]
          exact ih u hu
        · have hkeep : (!(decide ((k, r0).1 = k) && decide ((k, r0).2.workerId = wid))) = true := by
            simp [hkw]
          rw [hkeep]
          simp only [if_true]
          rw [lookupLock, if_neg huk, lookupLock, if_neg huk]
          exact ih u hu
      · have hkeep : (!(decide ((k, r0).1 = pl) && decide ((k, r0).2.workerId = wid))) = true := by
          simp [hkp]
        rw [hkeep]
        simp only [if_true]
        by_cases huk : u = k
        · simp [lookupLock, huk]
        · rw [lookupLock, if_neg huk, lookupLock, if_neg huk]
          exact ih u hu

/-- Witness for `release_lock_only_owner`: a release by the wrong worker
leaves the owner's lease, and an unrelated key is untouched. -/
theorem release_lock_only_owner_witness :
    lookupLock (release_playlist_lock [("pl1", ⟨"w1", 0, 100⟩)] "pl1" "wrong") "pl1" =
      some ⟨"w1", 0, 100⟩ ∧
    lookupLock (release_playlist_lock [("pl2", ⟨"w1", 0, 100⟩)] "pl1" "w1") "pl2" =
      some ⟨"w1", 0, 100⟩ :=
  ⟨(release_lock_only_owner [("pl1", ⟨"w1", 0, 100⟩)] "pl1" "wrong").1
      ⟨"w1", 0, 100⟩ rfl (by decide),
    (release_lock_only_owner [("pl2", ⟨"w1", 0, 100⟩)] "pl1" "w1").2 "pl2" (by decide)⟩

/-! ### Credentials: claim C4 -/

/-- **C4** (failing input).  Starting from a credentials row saved with
client id `test_id` and secret `test_secret` (as the `auth` flow and the
repo's own test `token_refresh.rs` do), a Spotify token refresh persists the
new token through `SpotifyProvider::persist_token_to_db`, which calls
`save_credential_raw(conn, "spotify", s, None, None)`; the upsert's
`ON CONFLICT ... SET client_id = excluded.client_id` then overwrites both
client columns with NULL.  The claim (and the test, and the comment in
`TidalProvider::persist_token_to_db`) requires them unchanged.  The Tidal
provider passes the credentials through explicitly and does preserve them. -/
theorem spotify_refresh_wipes_client_credentials :
    lookupCred (save_credential_raw [] "spotify" "old-token" (some "test_id")
        (some "test_secret") 100) "spotify" =
      some ⟨"old-token", some "test_id", some "test_secret", 100⟩ ∧
    lookupCred (spotify_persist_token_to_db
        (save_credential_raw [] "spotify" "old-token" (some "test_id")
          (some "test_secret") 100) "new-token" 200) "spotify" =
      some ⟨"new-token", none, none, 200⟩ ∧
    lookupCred (tidal_persist_token_to_db
        (save_credential_raw [] "tidal" "old-token" (some "test_id")
          (some "test_secret") 100) "test_id" "test_secret" "new-token" 200) "tidal" =
      some ⟨"new-token", some "test_id", some "test_secret", 200⟩ := by
  refine ⟨rfl, rfl, rfl⟩

/-! ### Batch application: claims C3, C5 and C6 -/

/-- **C3** (amended).  The worker marks the batch's originating queue events
synced at the end of the batch phase *regardless* of whether the add/remove
batches succeeded: `apply_in_batches` swallows a permanently failed chunk
(it logs, gives the chunk up and returns `Ok`), the callers only log its
errors, and `run_worker_once` then unconditionally runs
`mark_events_synced`.  A permanently failed batch is therefore *not*
retried by a later pass; events stay unsynced only when the pass exits
before the batch phase (lock not acquired, or playlist creation failed). -/
theorem worker_marks_events_synced_regardless (cfg : Cfg)
    (pl disp pid : String) (removeUris addUris : List String)
    (removeScript addScript : List (Except String Unit))
    (esR esA : List (Except String String)) (ids : List Int) :
    Action.markEventsSynced ids ∈
      worker_batch_phase cfg pl disp pid removeUris addUris
        removeScript addScript esR esA ids := by
  simp [worker_batch_phase, List.mem_append]

/-- **C3** (counterexample).  A batch whose two permitted attempts both fail
with a permanent (non-rate-limit) network error is given up, yet the
worker's pass still emits `markEventsSynced` for the originating events —
the claim that they are left unsynced for a later pass to retry is false.
The full action trace: the add is attempted twice (with one 2-second
backoff), abandoned, and the events `[7, 8]` are marked synced anyway. -/
theorem permanent_failure_still_marks_synced :
    worker_batch_phase ⟨2, 50⟩ "pl" "PL" "P1" [] ["spotify:track:9"] []
        [.error "connection reset by peer", .error "connection reset by peer"]
        [] [] [7, 8] =
      [.callAddTracks "P1" ["spotify:track:9"], .sleepSec 2,
       .callAddTracks "P1" ["spotify:track:9"],
       .markEventsSynced [7, 8], .releaseLock "pl"] := by
  rfl

/-- **C5**.  When a batch call fails with an error message advertising a
rate-limit `retry_after=<secs>` token (which also triggers the worker's
rate-limit detection, as does the substring `rate_limited`), the applier
sleeps exactly the advertised duration plus one second and retries the very
same chunk, and while the attempt count stays below `max_retries_on_error`
a rate-limited failure never abandons the chunk or raises an error. -/
theorem rate_limited_sleeps_and_retries (cfg : Cfg) (isAdd : Bool)
    (pl disp : String) (f : Nat) (s : String) (n : Nat)
    (bs : List (Except String Unit)) (chunk : List String)
    (rest : List (List String)) (st : ApplyState)
    (hadv : parseRetryAfter s = some n)
    (hbudget : st.attempt + 1 < cfg.maxRetriesOnError) :
    applyGo cfg isAdd pl disp (f + 1) (.error s :: bs) (chunk :: rest) st =
      applyGo cfg isAdd pl disp f bs (chunk :: rest)
        { st with
          attempt := st.attempt + 1,
          log := st.log ++
            [if isAdd then Action.callAddTracks st.playlistId chunk
             else Action.callRemoveTracks st.playlistId chunk,
             Action.sleepSec (n + 1)] } := by
  have hrl : isRateLimitMsg s = true := by simp [isRateLimitMsg, hadv]
  have hnle : ¬ (cfg.maxRetriesOnError ≤ st.attempt + 1) := not_le.mpr hbudget
  simp [applyGo, hrl, hadv, hnle]

/-- Witness for `rate_limited_sleeps_and_retries` on the TIDAL rate-limit
message format with `retry_after = 3`: the applier sleeps 4 seconds and
retries the same chunk. -/
theorem rate_limited_sleeps_and_retries_witness :
    parseRetryAfter "rate_limited: retry_after=Some(3)" = some 3 ∧
    0 + 1 < 3 ∧
    applyGo ⟨3, 50⟩ true "pl" "PL" 1
        [.error "rate_limited: retry_after=Some(3)"] [["u1"]]
        ⟨"P1", 0, [], []⟩ =
      applyGo ⟨3, 50⟩ true "pl" "PL" 0 [] [["u1"]]
        ⟨"P1", 1, [], [.callAddTracks "P1" ["u1"], .sleepSec 4]⟩ :=
  ⟨by decide, by decide,
    rate_limited_sleeps_and_retries ⟨3, 50⟩ true "pl" "PL" 0
      "rate_limited: retry_after=Some(3)" 3 [] ["u1"] [] ⟨"P1", 0, [], []⟩
      (by decide) (by decide)⟩

/-- **C6** (amended).  The recreate-on-missing recovery exists, but it is
keyed to TIDAL's error strings: during batch application the worker
recreates, re-maps, resets the attempt counter and retries the same chunk
against the new id exactly when the message matches
`tidal add tracks failed: 404 Not Found` + `Playlists with id` (this check
runs for add *and* remove batches, but a remove failure produces
`tidal remove tracks failed: ...`, which never matches); during an explicit
rename the analogous `tidal rename failed: 404` pattern recreates the
playlist under the target name, upserts the map with the new id and ends the
rename loop.  Missing-playlist reports in any other format — in particular
every remove-tracks 404 — take the generic retry/give-up path with no
recreate (see the counterexample). -/
theorem missing_playlist_recreate_add_and_rename (cfg : Cfg)
    (pl disp toKey newName : String) :
    (∀ (isAdd : Bool) (f : Nat) (s : String) (bs : List (Except String Unit))
       (chunk : List String) (rest : List (List String)) (st : ApplyState)
       (newId : String) (es : List (Except String String)),
        isRateLimitMsg s = false →
        isMissingPlaylistAddMsg s = true →
        st.ensureScript = .ok newId :: es →
        applyGo cfg isAdd pl disp (f + 1) (.error s :: bs) (chunk :: rest) st =
          applyGo cfg isAdd pl disp f bs (chunk :: rest)
            { playlistId := newId,
              attempt := 0,
              ensureScript := es,
              log := st.log ++
                [if isAdd then Action.callAddTracks st.playlistId chunk
                 else Action.callRemoveTracks st.playlistId chunk,
                 Action.callEnsurePlaylist disp,
                 Action.upsertPlaylistMap pl newId] }) ∧
    (∀ (s : String) (rs : List (Except String Unit))
       (es : List (Except String String)) (attempt : Nat) (pid newId : String)
       (log : List Action),
        isMissingPlaylistRenameMsg s = true →
        rename_loop cfg pl toKey newName (.error s :: rs) (.ok newId :: es)
            attempt pid log =
          (newId, log ++ [.callRenamePlaylist pid newName,
            .callEnsurePlaylist newName, .upsertPlaylistMap pl newId])) := by
  constructor
  · intro isAdd f s bs chunk rest st newId es hrl hmiss hes
    simp [applyGo, hrl, hmiss, hes]
  · intro s rs es attempt pid newId log hmiss
    simp [rename_loop, hmiss]

/-- Witness for `missing_playlist_recreate_add_and_rename` on the concrete
TIDAL 404 messages: an add batch and an explicit rename both recreate the
playlist and adopt the new id. -/
theorem missing_playlist_recreate_add_and_rename_witness :
    isRateLimitMsg (tidalAddTracksErrMsg "404 Not Found" "Playlists with id 777 not found") = false ∧
    isMissingPlaylistAddMsg (tidalAddTracksErrMsg "404 Not Found" "Playlists with id 777 not found") = true ∧
    applyGo ⟨2, 50⟩ true "pl" "PL" 1
        [.error (tidalAddTracksErrMsg "404 Not Found" "Playlists with id 777 not found")]
        [["tidal:track:1"]] ⟨"OLD", 0, [.ok "NEW"], []⟩ =
      applyGo ⟨2, 50⟩ true "pl" "PL" 0 [] [["tidal:track:1"]]
        ⟨"NEW", 0, [],
          [.callAddTracks "OLD" ["tidal:track:1"], .callEnsurePlaylist "PL",
           .upsertPlaylistMap "pl" "NEW"]⟩ ∧
    rename_loop ⟨2, 50⟩ "pl" "Artist/New" "PL2"
        [.error (tidalRenameErrMsg "404 Not Found" "Playlists with id 777 not found")]
        [.ok "NEW2"] 0 "OLD2" [] =
      ("NEW2", [.callRenamePlaylist "OLD2" "PL2", .callEnsurePlaylist "PL2",
        .upsertPlaylistMap "pl" "NEW2"]) :=
  ⟨by decide, by decide,
    (missing_playlist_recreate_add_and_rename ⟨2, 50⟩ "pl" "PL" "Artist/New" "PL2").1
      true 0 (tidalAddTracksErrMsg "404 Not Found" "Playlists with id 777 not found")
      [] ["tidal:track:1"] [] ⟨"OLD", 0, [.ok "NEW"], []⟩ "NEW" []
      (by decide) (by decide) rfl,
    (missing_playlist_recreate_add_and_rename ⟨2, 50⟩ "pl" "PL" "Artist/New" "PL2").2
      (tidalRenameErrMsg "404 Not Found" "Playlists with id 777 not found")
      [] [] 0 "OLD2" "NEW2" [] (by decide)⟩

/-- **C6** (counterexample).  A remove batch that fails because the remote
playlist is missing (TIDAL's `tidal remove tracks failed: 404 Not Found =>
... Playlists with id ... not found`) is *not* recovered: the worker's
missing-playlist check looks for the add-tracks message, so the batch takes
the generic retry path, is abandoned after `max_retries_on_error = 2`
attempts, `ensure_playlist` is never called (the scripted response is left
unconsumed), no map update happens, and the removal never completes —
refuting the claim for remove-tracks operations. -/
theorem remove_batch_missing_playlist_not_recreated :
    (apply_in_batches ⟨2, 50⟩ false "pl" "PL" "OLDID" ["tidal:track:1"]
        [.error (tidalRemoveTracksErrMsg "404 Not Found" "Playlists with id 9f9 not found"),
         .error (tidalRemoveTracksErrMsg "404 Not Found" "Playlists with id 9f9 not found")]
        [.ok "NEWID"]).2.log =
      [.callRemoveTracks "OLDID" ["tidal:track:1"], .sleepSec 2,
       .callRemoveTracks "OLDID" ["tidal:track:1"]] ∧
    (apply_in_batches ⟨2, 50⟩ false "pl" "PL" "OLDID" ["tidal:track:1"]
        [.error (tidalRemoveTracksErrMsg "404 Not Found" "Playlists with id 9f9 not found"),
         .error (tidalRemoveTracksErrMsg "404 Not Found" "Playlists with id 9f9 not found")]
        [.ok "NEWID"]).2.ensureScript = [.ok "NEWID"] :=
  ⟨rfl, rfl⟩

/-! ### Track cache: claim C8 -/

/-- **C8** (failing input).  After a successful Spotify-side resolution of
`/music/a.mp3` persists `(ISRC1, spotify:track:1)` into the track cache, a
subsequent resolution of the *same provider and path* does return the same
URI from the cache with no provider search call — that much of the claim
holds.  But the cached entry is *not* keyed by the provider:
`db.rs` `get_track_cache_by_local` filters on `local_path` alone, so a
lookup for provider `tidal` on the same path returns the Spotify URI too
(and skips the Tidal search), although the spec, the worker's call sites and
the repo's test `db_cache_tests.rs` all treat the cache as keyed by
`(provider, local_path)`. -/
theorem track_cache_lookup_not_provider_scoped :
    resolve_uses_cache
        (upsert_track_cache [] "/music/a.mp3" (some "ISRC1") (some "spotify:track:1") 100)
        "spotify" "/music/a.mp3" = (some "spotify:track:1", false) ∧
    resolve_uses_cache
        (upsert_track_cache [] "/music/a.mp3" (some "ISRC1") (some "spotify:track:1") 100)
        "tidal" "/music/a.mp3" = (some "spotify:track:1", false) := by
  exact ⟨rfl, rfl⟩

end MusicSync
